import Mathlib

/-!
Shallow embedding of the `chainforge` blockchain (src/src/main.rs).

Modelling conventions:
* SHA-256 (the external `sha2` crate) is abstracted as a parameter
  `H : String → String` mapping the hashed data string to its
  lowercase-hex digest; every definition that hashes takes `H` explicitly.
  The fact that the real digest is 64 hex characters enters only as an
  explicit hypothesis where a claim needs it.
* `f64` amounts are modelled by `Amount`: exact rationals for finite
  values (rounding is abstracted away; no theorem relies on exactness
  of finite-value arithmetic) plus the IEEE non-finite values `nan`,
  `inf`, `neginf`, whose arithmetic IEEE 754 defines exactly and which
  `serde_json` renders as JSON `null`.
* `Utc::now()` is an effect; constructors take the epoch-seconds
  timestamp (`Int`, the value of `DateTime::timestamp()`) as an input.
* The unbounded `while` loop of `mine_block` is modelled with explicit
  fuel; `MineOutcome.outOfFuel` is the model artifact for "still
  looping", `MineOutcome.panicked` models the fatal out-of-range string
  slice `&self.hash[..difficulty]`.
* Hash strings in the claims are ASCII hex, so the byte-indexed Rust
  slice `&s[..n]` is modelled as a character-indexed take with the same
  bounds check.
-/

namespace ChainForge

/-- Model of `f64`: finite values as exact rationals, plus the IEEE
non-finite values. -/
inductive Amount where
  | finite (q : ℚ)
  | nan
  | inf
  | neginf
deriving DecidableEq, Repr

/-- IEEE negation on the modelled `f64`. -/
def Amount.neg : Amount → Amount
  | .finite q => .finite (-q)
  | .nan => .nan
  | .inf => .neginf
  | .neginf => .inf

/-- IEEE addition on the modelled `f64`. The non-finite cases follow
IEEE 754 exactly; the finite-plus-finite case abstracts rounding to
exact rational addition, and no theorem below depends on that
exactness — real `f64` rounding (for example
`(1.0 - 1e300) + 1e300 = 0.0`) can make a finite subtract-then-add
pair fail to cancel, which is why no cancellation property is claimed
for finite amounts. -/
def Amount.add : Amount → Amount → Amount
  | .nan, _ => .nan
  | _, .nan => .nan
  | .inf, .neginf => .nan
  | .neginf, .inf => .nan
  | .inf, _ => .inf
  | _, .inf => .inf
  | .neginf, _ => .neginf
  | _, .neginf => .neginf
  | .finite p, .finite q => .finite (p + q)

/-- IEEE subtraction: `x - y = x + (-y)` holds exactly in IEEE 754. -/
def Amount.sub (a b : Amount) : Amount := a.add b.neg

/-- Rust `struct Transaction { from, to, amount }` (main.rs lines 6-11). -/
structure Transaction where
  «from» : String
  «to» : String
  amount : Amount
deriving DecidableEq, Repr

/-- Rust `Transaction::new` (main.rs lines 14-16). -/
def Transaction.new (f t : String) (amount : Amount) : Transaction :=
  { «from» := f, «to» := t, amount := amount }

/-- Rendering of an amount inside the JSON text. `serde_json`'s
`serialize_f64` classifies the value and writes the JSON literal
`null` for `Nan | Infinite` — non-finite floats have no JSON number
representation — and the decimal digits otherwise. The exact digits of
the finite formatting are immaterial to every claim; what matters is
that the rendering is a function of the value (and, at the concrete
values used in witnesses, that distinct finite values render
distinctly, which is checked by `decide` there). -/
def renderAmount : Amount → String
  | .finite q => toString q
  | _ => "null"

/-- Rust `serde_json` serialization of one transaction; for this data
type (strings and an `f64`) it cannot fail. -/
def Transaction.toJson (t : Transaction) : String :=
  "\x7b\"from\":\"" ++ t.«from» ++ "\",\"to\":\"" ++ t.«to» ++
    "\",\"amount\":" ++ renderAmount t.amount ++ "\x7d"

/-- Rust `serde_json::to_string(&self.transactions)`: the `Result` it
returns is always `Ok` for this type — its `f64` serializer never
errors, writing `null` for non-finite values — so the
`unwrap_or_default()` at the call site is dead code; the always-`some`
`Option` models that `Result`. -/
def serializeTransactions (ts : List Transaction) : Option String :=
  some ("[" ++ String.intercalate "," (ts.map Transaction.toJson) ++ "]")

/-- Rust `struct Block` (main.rs lines 19-27); `index`/`nonce` are `u64`
(never near overflow in any claim), `timestamp` is kept as the epoch
seconds that `calculate_hash` consumes. -/
structure Block where
  index : Nat
  timestamp : Int
  transactions : List Transaction
  previous_hash : String
  hash : String
  nonce : Nat
deriving DecidableEq, Repr

/-- Rust `Block::calculate_hash` (main.rs lines 44-56): concatenates
`index`, epoch seconds, the JSON of the transactions with
`unwrap_or_default()` (the empty string on serialization failure),
`previous_hash` and `nonce`, and hashes the result. -/
def Block.calculate_hash (H : String → String) (b : Block) : String :=
  H (toString b.index ++ toString b.timestamp ++
     (serializeTransactions b.transactions).getD "" ++
     b.previous_hash ++ toString b.nonce)

/-- Rust `Block::new` (main.rs lines 30-42): nonce 0, provisional empty
hash, then `hash = calculate_hash()`. -/
def Block.new (H : String → String) (index : Nat) (timestamp : Int)
    (transactions : List Transaction) (previous_hash : String) : Block :=
  let block : Block :=
    { index := index, timestamp := timestamp, transactions := transactions,
      previous_hash := previous_hash, hash := "", nonce := 0 }
  { block with hash := block.calculate_hash H }

/-- Rust `"0".repeat(difficulty)` (main.rs line 59). -/
def target (difficulty : Nat) : String := String.mk (List.replicate difficulty '0')

/-- The Rust slice `&s[..n]`: defined when `n` is in bounds, a panic
(`none`) otherwise. The strings sliced by the claims are ASCII hex, so
byte indices and character indices coincide. -/
def sliceTo (s : String) (n : Nat) : Option String :=
  if n ≤ s.length then some (String.mk (s.data.take n)) else none

/-- Outcome of the (fuel-bounded model of the) mining loop. -/
inductive MineOutcome where
  | mined (b : Block)
  | panicked
  | outOfFuel (b : Block)
deriving DecidableEq, Repr

/-- Rust `Block::mine_block` (main.rs lines 58-68):
`while &self.hash[..difficulty] != target { self.nonce += 1; self.hash = self.calculate_hash(); }`.
Fuel only bounds the model; `outOfFuel` means the real loop is still
running, `panicked` means the slice was out of range. -/
def Block.mineLoop (H : String → String) (difficulty : Nat) : Nat → Block → MineOutcome
  | 0, b => .outOfFuel b
  | fuel + 1, b =>
    match sliceTo b.hash difficulty with
    | none => .panicked
    | some pre =>
      if pre = target difficulty then .mined b
      else
        let b1 : Block := { b with nonce := b.nonce + 1 }
        Block.mineLoop H difficulty fuel { b1 with hash := b1.calculate_hash H }

/-- Rust `struct Blockchain` (main.rs lines 86-92). -/
structure Blockchain where
  chain : List Block
  difficulty : Nat
  pending_transactions : List Transaction
  mining_reward : Amount
deriving DecidableEq, Repr

/-- The record literal inside `Blockchain::new` (main.rs lines 96-101),
before `create_genesis_block` runs. -/
def Blockchain.init : Blockchain :=
  { chain := [], difficulty := 2, pending_transactions := [],
    mining_reward := .finite 100 }

/-- Rust `Blockchain::create_genesis_block` (main.rs lines 106-116): builds
the genesis block (one `"Genesis" → "Genesis"` transaction of amount 0,
index 0, `previous_hash = "0"`), mines it at the chain's difficulty and
pushes it. `none` when the model's mining loop panics or runs out of
fuel. -/
def Blockchain.create_genesis_block (H : String → String) (timestamp : Int)
    (fuel : Nat) (bc : Blockchain) : Option Blockchain :=
  let genesis_transactions := [Transaction.new "Genesis" "Genesis" (.finite 0)]
  let genesis_block := Block.new H 0 timestamp genesis_transactions "0"
  match genesis_block.mineLoop H bc.difficulty fuel with
  | .mined b => some { bc with chain := bc.chain ++ [b] }
  | _ => none

/-- Rust `Blockchain::new` (main.rs lines 95-104). -/
def Blockchain.new (H : String → String) (timestamp : Int) (fuel : Nat) :
    Option Blockchain :=
  Blockchain.init.create_genesis_block H timestamp fuel

/-- Rust `Blockchain::get_latest_block` (main.rs lines 118-120):
`self.chain.last().unwrap()`; the `unwrap` panic on an empty chain is
the `none` case. -/
def Blockchain.get_latest_block (bc : Blockchain) : Option Block :=
  bc.chain.getLast?

/-- Rust `Blockchain::add_transaction` (main.rs lines 122-124). -/
def Blockchain.add_transaction (bc : Blockchain) (t : Transaction) : Blockchain :=
  { bc with pending_transactions := bc.pending_transactions ++ [t] }

/-- Rust `Blockchain::mine_pending_transactions` (main.rs lines 126-143):
pushes the reward transaction (`"System" → address`, amount
`mining_reward`) onto the pending buffer, builds a block at index
`chain.len()` over a copy of the buffer with the tip's hash as
`previous_hash`, mines it, appends it and clears the buffer. `none`
when the tip lookup or the model's mining loop fails. -/
def Blockchain.mine_pending_transactions (H : String → String) (timestamp : Int)
    (fuel : Nat) (bc : Blockchain) (mining_reward_address : String) :
    Option Blockchain :=
  let reward_transaction := Transaction.new "System" mining_reward_address bc.mining_reward
  let pending := bc.pending_transactions ++ [reward_transaction]
  match bc.get_latest_block with
  | none => none
  | some latest =>
    let block := Block.new H bc.chain.length timestamp pending latest.hash
    match block.mineLoop H bc.difficulty fuel with
    | .mined b =>
      some { bc with chain := bc.chain ++ [b], pending_transactions := [] }
    | _ => none

/-- Rust `Blockchain::get_balance` (main.rs lines 145-160): fold over every
transaction of every block in chain order, subtracting on `from ==
address` and adding on `to == address`. -/
def Blockchain.get_balance (bc : Blockchain) (address : String) : Amount :=
  bc.chain.foldl
    (fun balance block =>
      block.transactions.foldl
        (fun balance t =>
          let balance := if t.«from» = address then balance.sub t.amount else balance
          if t.«to» = address then balance.add t.amount else balance)
        balance)
    (.finite 0)

/-- The body of the `for i in 1..len` loop of `is_chain_valid` for one
adjacent pair, checks in source order: stored hash against a fresh
`calculate_hash()`, then `previous_hash` against the predecessor's
stored hash. -/
def validPair (H : String → String) (previous_block current_block : Block) : Bool :=
  (current_block.hash == current_block.calculate_hash H) &&
  (current_block.previous_hash == previous_block.hash)

/-- The loop of `is_chain_valid`, walking adjacent pairs from index 1
onwards (early `return false` becomes `&&` short-circuit). -/
def chainValidAux (H : String → String) : Block → List Block → Bool
  | _, [] => true
  | previous_block, current_block :: rest =>
    validPair H previous_block current_block && chainValidAux H current_block rest

/-- Rust `Blockchain::is_chain_valid` (main.rs lines 162-176): true on chains
of length at most 1, otherwise every block from index 1 on must pass
both checks of `validPair` against its predecessor. -/
def Blockchain.is_chain_valid (H : String → String) (bc : Blockchain) : Bool :=
  match bc.chain with
  | [] => true
  | b :: rest => chainValidAux H b rest

/-- In-place update of one element of a list (`Vec` indexing on the
left of an assignment); out-of-range indices leave the list unchanged
(the demo guards its index with `get_mut`). -/
def listModify {α : Type} : List α → Nat → (α → α) → List α
  | [], _, _ => []
  | a :: l, 0, f => f a :: l
  | a :: l, n + 1, f => a :: listModify l n f

/-- Rust `block.transactions[j].amount = a` on one block. -/
def Block.setTxAmount (b : Block) (j : Nat) (a : Amount) : Block :=
  { b with transactions := listModify b.transactions j (fun t => { t with amount := a }) }

/-- The demo's tampering step (main.rs lines 247-249):
`blockchain.chain[i].transactions[j].amount = a`, in place, without
re-mining. -/
def Blockchain.setTxAmount (bc : Blockchain) (i j : Nat) (a : Amount) : Blockchain :=
  { bc with chain := listModify bc.chain i (fun b => b.setTxAmount j a) }

/-- States reachable from `Blockchain::new()` by `add_transaction` and
(successful) `mine_pending_transactions` calls, for arbitrary
timestamps, fuel and arguments. -/
inductive Reachable (H : String → String) : Blockchain → Prop
  | new (timestamp : Int) (fuel : Nat) (bc : Blockchain) :
      Blockchain.new H timestamp fuel = some bc → Reachable H bc
  | add (bc : Blockchain) (t : Transaction) :
      Reachable H bc → Reachable H (bc.add_transaction t)
  | mine (bc : Blockchain) (timestamp : Int) (fuel : Nat) (addr : String)
      (bc' : Blockchain) :
      Reachable H bc →
      bc.mine_pending_transactions H timestamp fuel addr = some bc' →
      Reachable H bc'

/-! Helper lemmas about the mining loop. -/

/-- The hash field is not an input of `calculate_hash`. -/
theorem calculate_hash_hash_irrel (H : String → String) (b : Block) (h : String) :
    Block.calculate_hash H { b with hash := h } = b.calculate_hash H := rfl

/-- A block returned by the mining loop keeps the index, timestamp,
transactions and previous hash of the block it started from. -/
theorem mineLoop_frame (H : String → String) (d : Nat) :
    ∀ (fuel : Nat) (b b' : Block), Block.mineLoop H d fuel b = .mined b' →
      b'.index = b.index ∧ b'.timestamp = b.timestamp ∧
      b'.transactions = b.transactions ∧ b'.previous_hash = b.previous_hash := by
  intro fuel
  induction fuel with
  | zero => intro b b' h; simp [Block.mineLoop] at h
  | succ n ih =>
    intro b b' h
    rw [Block.mineLoop] at h
    split at h
    · exact absurd h (by simp)
    · split at h
      · injection h with hh
        subst hh; exact ⟨rfl, rfl, rfl, rfl⟩
      · simpa using ih _ _ h

/-- If the mining loop succeeds starting from a block whose stored hash
is its computed hash, the result's stored hash is again its computed
hash and its first `d` characters are all the target character. -/
theorem mineLoop_mined_spec (H : String → String) (d : Nat) :
    ∀ (fuel : Nat) (b b' : Block), b.hash = b.calculate_hash H →
      Block.mineLoop H d fuel b = .mined b' →
      b'.hash = b'.calculate_hash H ∧ b'.hash.data.take d = List.replicate d '0' := by
  intro fuel
  induction fuel with
  | zero => intro b b' _ h; simp [Block.mineLoop] at h
  | succ n ih =>
    intro b b' hinv h
    rw [Block.mineLoop] at h
    split at h
    · exact absurd h (by simp)
    · rename_i pre hs
      split at h
      · rename_i hp
        injection h with hh
        subst hh
        refine ⟨hinv, ?_⟩
        unfold sliceTo at hs
        by_cases hd : d ≤ b.hash.length
        · rw [if_pos hd] at hs
          have hpre : pre = String.mk (b.hash.data.take d) :=
            (Option.some.injEq _ _ ▸ hs.symm)
          have : String.mk (b.hash.data.take d) = target d := hpre ▸ hp
          simpa [target] using congrArg String.data this
        · rw [if_neg hd] at hs; exact absurd hs (by simp)
      · exact ih _ _ rfl h

/-! Helper lemmas about chain validation. -/

/-- The two checks of the validation loop, as a proposition. -/
def blockOK (H : String → String) (previous_block current_block : Block) : Prop :=
  current_block.hash = current_block.calculate_hash H ∧
  current_block.previous_hash = previous_block.hash

theorem validPair_iff (H : String → String) (p c : Block) :
    validPair H p c = true ↔ blockOK H p c := by
  simp [validPair, blockOK, Bool.and_eq_true]

theorem chainValidAux_iff (H : String → String) (p : Block) (l : List Block) :
    chainValidAux H p l = true ↔ List.Chain' (blockOK H) (p :: l) := by
  induction l generalizing p with
  | nil => simp [chainValidAux, List.chain'_singleton]
  | cons c rest ih =>
    rw [List.chain'_cons]
    simp [chainValidAux, Bool.and_eq_true, validPair_iff, ih]

theorem is_chain_valid_iff_chain' (H : String → String) (bc : Blockchain) :
    bc.is_chain_valid H = true ↔ List.Chain' (blockOK H) bc.chain := by
  unfold Blockchain.is_chain_valid
  cases bc.chain with
  | nil => simp
  | cons b rest => exact chainValidAux_iff H b rest

/-- The validation verdict as an indexed search for a failing block at
index `i + 1 ≥ 1`. -/
theorem is_chain_valid_false_iff_aux (H : String → String) (bc : Blockchain) :
    bc.is_chain_valid H = false ↔
      ∃ i, ∃ h : i + 1 < bc.chain.length,
        ((bc.chain.get ⟨i + 1, h⟩).hash ≠ (bc.chain.get ⟨i + 1, h⟩).calculate_hash H ∨
         (bc.chain.get ⟨i + 1, h⟩).previous_hash ≠
           (bc.chain.get ⟨i, Nat.lt_of_succ_lt h⟩).hash) := by
  constructor
  · intro hfalse
    by_contra hno
    push_neg at hno
    have htrue : bc.is_chain_valid H = true := by
      rw [is_chain_valid_iff_chain', List.chain'_iff_get]
      intro i h
      have h' : i + 1 < bc.chain.length := by omega
      exact ⟨(hno i h').1, (hno i h').2⟩
    rw [htrue] at hfalse
    exact Bool.noConfusion hfalse
  · rintro ⟨i, h, hbad⟩
    cases hval : bc.is_chain_valid H with
    | false => rfl
    | true =>
      exfalso
      have := (is_chain_valid_iff_chain' H bc).mp hval
      rw [List.chain'_iff_get] at this
      have hb := this i (by omega)
      exact hbad.elim (fun hne => hne hb.1) (fun hne => hne hb.2)

/-- Validation reads the head block only through its stored hash. -/
theorem valid_congr_head (H : String → String) (bc : Blockchain) (b0 b0' : Block)
    (rest : List Block) (hhash : b0.hash = b0'.hash) :
    ({ bc with chain := b0 :: rest } : Blockchain).is_chain_valid H =
      ({ bc with chain := b0' :: rest } : Blockchain).is_chain_valid H := by
  show chainValidAux H b0 rest = chainValidAux H b0' rest
  cases rest with
  | nil => rfl
  | cons c r => simp [chainValidAux, validPair, hhash]

/-! Helper lemmas about reachable blockchain states. -/

/-- Invariant of reachable states: non-empty chain, genesis data at the
head, predecessor linkage, and every block's stored hash equal to its
recomputed hash. -/
def GoodChain (H : String → String) (bc : Blockchain) : Prop :=
  bc.chain ≠ [] ∧
  (∀ b0 ∈ bc.chain.head?, b0.index = 0 ∧ b0.previous_hash = "0") ∧
  List.Chain' (fun a b => b.previous_hash = a.hash) bc.chain ∧
  (∀ b ∈ bc.chain, b.hash = b.calculate_hash H)

/-- A freshly constructed block stores its own computed hash. -/
theorem block_new_hash_inv (H : String → String) (i : Nat) (ts : Int)
    (txs : List Transaction) (ph : String) :
    (Block.new H i ts txs ph).hash = (Block.new H i ts txs ph).calculate_hash H := rfl

theorem reachable_good (H : String → String) (bc : Blockchain)
    (h : Reachable H bc) : GoodChain H bc := by
  induction h with
  | new ts fuel bc h =>
    simp only [Blockchain.new, Blockchain.create_genesis_block] at h
    split at h
    · rename_i b hm
      injection h with h
      subst h
      have hf := mineLoop_frame H Blockchain.init.difficulty fuel _ b hm
      have hs := mineLoop_mined_spec H Blockchain.init.difficulty fuel _ b
        (block_new_hash_inv H 0 ts [Transaction.new "Genesis" "Genesis" (.finite 0)] "0") hm
      refine ⟨by simp, ?_, ?_, ?_⟩
      · intro b0 hb0
        simp only [Blockchain.init, List.nil_append, List.head?_cons,
          Option.mem_def, Option.some.injEq] at hb0
        subst hb0
        exact ⟨hf.1, hf.2.2.2⟩
      · simp [Blockchain.init]
      · intro b' hb'
        simp only [Blockchain.init, List.nil_append, List.mem_singleton] at hb'
        subst hb'
        exact hs.1
    · exact absurd h (by simp)
  | add bc t hr ih =>
    exact ih
  | mine bc ts fuel addr bc' hr hm ih =>
    simp only [Blockchain.mine_pending_transactions, Blockchain.get_latest_block] at hm
    split at hm
    · exact absurd hm (by simp)
    · rename_i latest hlatest
      split at hm
      · rename_i b hmine
        injection hm with hm
        subst hm
        have hf := mineLoop_frame H bc.difficulty fuel _ b hmine
        have hs := mineLoop_mined_spec H bc.difficulty fuel _ b
          (block_new_hash_inv H bc.chain.length ts
            (bc.pending_transactions ++ [Transaction.new "System" addr bc.mining_reward])
            latest.hash) hmine
        obtain ⟨hne, hhead, hlink, hhash⟩ := ih
        refine ⟨by simp, ?_, ?_, ?_⟩
        · intro b0 hb0
          apply hhead
          cases hc : bc.chain with
          | nil => exact absurd hc hne
          | cons a l =>
            rw [hc] at hb0
            simpa using hb0
        · rw [List.chain'_append]
          refine ⟨hlink, List.chain'_singleton b, ?_⟩
          intro x hx y hy
          simp only [List.head?_cons, Option.mem_def, Option.some.injEq] at hy
          subst hy
          rw [Option.mem_def, hlatest, Option.some.injEq] at hx
          subst hx
          exact hf.2.2.2.trans rfl
        · intro b' hb'
          rcases List.mem_append.mp hb' with hold | hnew
          · exact hhash b' hold
          · rw [List.mem_singleton] at hnew
            subst hnew
            exact hs.1
      · exact absurd hm (by simp)

theorem good_valid (H : String → String) (bc : Blockchain) (hg : GoodChain H bc) :
    bc.is_chain_valid H = true := by
  rw [is_chain_valid_iff_chain', List.chain'_iff_get]
  intro i h
  refine ⟨hg.2.2.2 _ (List.get_mem _ _ _), ?_⟩
  have hlink := hg.2.2.1
  rw [List.chain'_iff_get] at hlink
  exact hlink i h

/-! Helper lemmas about in-place list updates. -/

theorem listModify_length {α : Type} (l : List α) (n : Nat) (f : α → α) :
    (listModify l n f).length = l.length := by
  induction l generalizing n with
  | nil => rfl
  | cons a l ih =>
    cases n with
    | zero => rfl
    | succ m => simp [listModify, ih]

theorem listModify_get_self {α : Type} (l : List α) (n : Nat) (f : α → α)
    (h : n < l.length) (h' : n < (listModify l n f).length) :
    (listModify l n f).get ⟨n, h'⟩ = f (l.get ⟨n, h⟩) := by
  induction l generalizing n with
  | nil => simp at h
  | cons a l ih =>
    cases n with
    | zero => rfl
    | succ m => exact ih m (by simpa using h) (by simpa [listModify] using h')

/-- In-place mutation of a transaction amount leaves the stored hash
field untouched. -/
theorem setTxAmount_hash (b : Block) (j : Nat) (a : Amount) :
    (b.setTxAmount j a).hash = b.hash := rfl

/-! Helper definitions and lemmas about the balance fold. -/

/-- One transaction's effect on the running balance: subtract on a
matching sender, then add on a matching recipient (the two independent
`if`s of the source loop body). -/
def balanceStep (address : String) (balance : Amount) (t : Transaction) : Amount :=
  let balance := if t.«from» = address then balance.sub t.amount else balance
  if t.«to» = address then balance.add t.amount else balance

/-- The balance projection as the spec words it: a single fold, started
at 0, over all transactions of all blocks in chain order. -/
def balanceSpec (bc : Blockchain) (address : String) : Amount :=
  ((bc.chain.map Block.transactions).flatten).foldl (balanceStep address) (.finite 0)

theorem get_balance_eq_spec (bc : Blockchain) (address : String) :
    bc.get_balance address = balanceSpec bc address := by
  unfold Blockchain.get_balance balanceSpec
  rw [List.foldl_flatten, List.foldl_map]
  rfl

theorem foldl_balanceStep_frozen (address : String) (l : List Transaction)
    (h : ∀ t ∈ l, t.«from» ≠ address ∧ t.«to» ≠ address) :
    ∀ balance : Amount, l.foldl (balanceStep address) balance = balance := by
  induction l with
  | nil => intro balance; rfl
  | cons t l ih =>
    intro balance
    have ht := h t (List.mem_cons_self t l)
    rw [List.foldl_cons,
      show balanceStep address balance t = balance by simp [balanceStep, ht.1, ht.2]]
    exact ih (fun t' ht' => h t' (List.mem_cons_of_mem _ ht')) balance

/-! Concrete inputs used by the witness theorems. -/

/-- A concrete stand-in digest function for witnesses: injective, and
every output starts with two copies of the target character, so mining
at the default difficulty 2 succeeds at nonce 0. -/
def witH : String → String := fun s => "00" ++ s

/-- A concrete freshly constructed block for witnesses. -/
def witB : Block := Block.new witH 0 0 [] "0"

/-- A concrete block whose stored hash has exactly 64 characters, the
length of a rendered SHA-256 digest. -/
def witB64 : Block :=
  { index := 0, timestamp := 0, transactions := [], previous_hash := "0",
    hash := String.mk (List.replicate 64 'a'), nonce := 0 }

/-! The claims. -/

/-- C1: whenever `mine_block(d)` returns on a block whose stored hash
is the digest computed at construction, the resulting block's stored
hash equals `calculate_hash()` over its current fields and its first
`d` characters are all the target character; at difficulty 0 the very
first check accepts the constructed hash with zero iterations, and any
block whose nonce-0 hash already meets the target is returned
unchanged, without a nonce increment. -/
theorem mine_block_pow (H : String → String) :
    (∀ (d fuel : Nat) (b b' : Block), b.hash = b.calculate_hash H →
        Block.mineLoop H d fuel b = .mined b' →
        b'.hash = b'.calculate_hash H ∧ b'.hash.data.take d = List.replicate d '0') ∧
    (∀ (b : Block) (fuel : Nat), Block.mineLoop H 0 (fuel + 1) b = .mined b) ∧
    (∀ (d fuel : Nat) (b : Block), sliceTo b.hash d = some (target d) →
        Block.mineLoop H d (fuel + 1) b = .mined b) := by
  refine ⟨fun d fuel b b' hinv h => mineLoop_mined_spec H d fuel b b' hinv h, ?_, ?_⟩
  · intro b fuel
    rw [Block.mineLoop]
    have h0 : sliceTo b.hash 0 = some (target 0) := by simp [sliceTo, target]
    rw [h0]
    simp
  · intro d fuel b h
    rw [Block.mineLoop, h]
    simp

/-- Witness for C1 at the concrete digest function and block. -/
theorem mine_block_pow_witness :
    witB.hash = witB.calculate_hash witH ∧
    Block.mineLoop witH 2 1 witB = .mined witB ∧
    (witB.hash = witB.calculate_hash witH ∧
      witB.hash.data.take 2 = List.replicate 2 '0') :=
  ⟨by decide, by decide, (mine_block_pow witH).1 2 1 witB witB (by decide) (by decide)⟩

/-- C7: `calculate_hash` is a function of exactly the five serialized
fields — index, timestamp as epoch seconds, transaction list, previous
hash, nonce — so any two blocks agreeing on them (the stored `hash`
field is not an input) receive the same digest, and two calls on fixed
field values agree; the model is a pure function of the block, matching
the `&self` receiver that mutates nothing. -/
theorem calculate_hash_deterministic (H : String → String) (b1 b2 : Block)
    (h1 : b1.index = b2.index) (h2 : b1.timestamp = b2.timestamp)
    (h3 : b1.transactions = b2.transactions) (h4 : b1.previous_hash = b2.previous_hash)
    (h5 : b1.nonce = b2.nonce) :
    b1.calculate_hash H = b2.calculate_hash H ∧
    b1.calculate_hash H = b1.calculate_hash H := by
  refine ⟨?_, rfl⟩
  unfold Block.calculate_hash
  rw [h1, h2, h3, h4, h5]

/-- Witness for C7: two blocks differing only in the stored hash field
hash identically. -/
theorem calculate_hash_deterministic_witness :
    witB.index = ({ witB with hash := "x" } : Block).index ∧
    witB.calculate_hash witH = ({ witB with hash := "x" } : Block).calculate_hash witH :=
  ⟨rfl,
    (calculate_hash_deterministic witH witB { witB with hash := "x" }
      rfl rfl rfl rfl rfl).1⟩

/-- C8: a returning `mine_block` call mutates only `nonce` and `hash`:
the index, timestamp, transactions and previous hash of the mined block
equal their values before the call. -/
theorem mine_block_frame (H : String → String) (d fuel : Nat) (b b' : Block)
    (h : Block.mineLoop H d fuel b = .mined b') :
    b'.index = b.index ∧ b'.timestamp = b.timestamp ∧
    b'.transactions = b.transactions ∧ b'.previous_hash = b.previous_hash :=
  mineLoop_frame H d fuel b b' h

/-- Witness for C8 at the concrete digest function and block. -/
theorem mine_block_frame_witness :
    Block.mineLoop witH 2 1 witB = .mined witB ∧
    (witB.index = witB.index ∧ witB.timestamp = witB.timestamp ∧
      witB.transactions = witB.transactions ∧
      witB.previous_hash = witB.previous_hash) :=
  ⟨by decide, mine_block_frame witH 2 1 witB witB (by decide)⟩

/-- C10: the slice `&self.hash[..difficulty]` carries no bounds check;
on a 64-character hash it is in bounds exactly for difficulty at most
64, and at any larger difficulty the first loop iteration panics
instead of looping or returning. -/
theorem mine_block_slice_bounds (H : String → String) (b : Block) (d fuel : Nat)
    (hlen : b.hash.length = 64) :
    ((sliceTo b.hash d).isSome ↔ d ≤ 64) ∧
    (64 < d → Block.mineLoop H d (fuel + 1) b = .panicked) := by
  constructor
  · unfold sliceTo
    rw [hlen]
    by_cases hd : d ≤ 64
    · simp [hd]
    · simp [hd]
  · intro hd
    rw [Block.mineLoop]
    have hnone : sliceTo b.hash d = none := by
      unfold sliceTo
      rw [hlen, if_neg (by omega)]
    rw [hnone]

/-- Witness for C10 at difficulty 65 on a 64-character hash. -/
theorem mine_block_slice_bounds_witness :
    witB64.hash.length = 64 ∧
    ((sliceTo witB64.hash 65).isSome ↔ 65 ≤ 64) ∧
    (64 < 65 → Block.mineLoop witH 65 1 witB64 = .panicked) :=
  ⟨by decide, (mine_block_slice_bounds witH witB64 65 0 (by decide)).1,
    (mine_block_slice_bounds witH witB64 65 0 (by decide)).2⟩

/-- The concrete genesis block mined under `witH` at timestamp 0
(mining succeeds at nonce 0, so it is the freshly constructed block). -/
def witGenesis : Block :=
  Block.new witH 0 0 [Transaction.new "Genesis" "Genesis" (.finite 0)] "0"

/-- The concrete one-block chain `Blockchain::new()` produces under
`witH`. -/
def witChain1 : Blockchain :=
  { chain := [witGenesis], difficulty := 2, pending_transactions := [],
    mining_reward := .finite 100 }

/-- The reward-only block mined on top of `witGenesis` at timestamp 7
for address "Miner1". -/
def witBlock1 : Block :=
  Block.new witH 1 7 [Transaction.new "System" "Miner1" (.finite 100)] witGenesis.hash

/-- The concrete two-block chain after one `mine_pending_transactions`
call on `witChain1`. -/
def witChain2 : Blockchain :=
  { chain := [witGenesis, witBlock1], difficulty := 2,
    pending_transactions := [], mining_reward := .finite 100 }

/-- The concrete chain `witChain2` is reachable under `witH`. -/
theorem witChain2_reachable : Reachable witH witChain2 :=
  Reachable.mine witChain1 7 1 "Miner1" witChain2
    (Reachable.new 0 1 witChain1 (by decide)) (by decide)

/-- C2: `is_chain_valid` returns false exactly when some block at an
index `i + 1 ≥ 1` fails the recomputed-hash check or the
predecessor-link check; the pass reads the genesis head only through
its stored hash, so replacing the genesis block's other contents while
keeping that stored hash leaves the verdict unchanged — a chain whose
only defect is genesis tampering still reports valid. -/
theorem is_chain_valid_false_iff (H : String → String) (bc : Blockchain)
    (b0 b0' : Block) (rest : List Block) (hhash : b0.hash = b0'.hash) :
    (bc.is_chain_valid H = false ↔
      ∃ i, ∃ h : i + 1 < bc.chain.length,
        ((bc.chain.get ⟨i + 1, h⟩).hash ≠
            (bc.chain.get ⟨i + 1, h⟩).calculate_hash H ∨
         (bc.chain.get ⟨i + 1, h⟩).previous_hash ≠
            (bc.chain.get ⟨i, Nat.lt_of_succ_lt h⟩).hash)) ∧
    ({ bc with chain := b0 :: rest } : Blockchain).is_chain_valid H =
      ({ bc with chain := b0' :: rest } : Blockchain).is_chain_valid H :=
  ⟨is_chain_valid_false_iff_aux H bc, valid_congr_head H bc b0 b0' rest hhash⟩

/-- Witness for C2: a genesis block whose contents are overwritten but
whose stored hash is kept does not change the validity verdict of the
concrete two-block chain. -/
theorem is_chain_valid_false_iff_witness :
    witGenesis.hash = ({ witGenesis with transactions := [] } : Block).hash ∧
    ({ witChain2 with chain := witGenesis :: [witBlock1] } : Blockchain).is_chain_valid witH =
      ({ witChain2 with
          chain := { witGenesis with transactions := [] } :: [witBlock1] } :
        Blockchain).is_chain_valid witH :=
  ⟨rfl,
    (is_chain_valid_false_iff witH witChain2 witGenesis
      { witGenesis with transactions := [] } [witBlock1] rfl).2⟩

/-- C3: every state reachable from `Blockchain::new()` through
`add_transaction` and successful `mine_pending_transactions` calls has
a non-empty chain whose head has index 0 and previous hash "0", and in
which every later block's `previous_hash` equals its predecessor's
stored hash; both operations only append to the chain — blocks are
never removed or reordered. -/
theorem reachable_chain_invariants (H : String → String) :
    (∀ bc : Blockchain, Reachable H bc →
      bc.chain ≠ [] ∧
      (∃ h0 : 0 < bc.chain.length,
        (bc.chain.get ⟨0, h0⟩).index = 0 ∧
        (bc.chain.get ⟨0, h0⟩).previous_hash = "0") ∧
      ∀ i, ∀ h : i + 1 < bc.chain.length,
        (bc.chain.get ⟨i + 1, h⟩).previous_hash =
          (bc.chain.get ⟨i, Nat.lt_of_succ_lt h⟩).hash) ∧
    (∀ (bc : Blockchain) (t : Transaction),
      ∃ l, (bc.add_transaction t).chain = bc.chain ++ l) ∧
    (∀ (bc : Blockchain) (timestamp : Int) (fuel : Nat) (addr : String)
        (bc' : Blockchain),
      bc.mine_pending_transactions H timestamp fuel addr = some bc' →
      ∃ l, bc'.chain = bc.chain ++ l) := by
  refine ⟨?_, ?_, ?_⟩
  · intro bc hr
    obtain ⟨hne, hhead, hlink, hhash⟩ := reachable_good H bc hr
    refine ⟨hne, ?_, ?_⟩
    · have h0 : 0 < bc.chain.length := by
        cases hcc : bc.chain with
        | nil => exact absurd hcc hne
        | cons a l => simp
      refine ⟨h0, ?_⟩
      refine hhead _ ?_
      rw [List.head?_eq_getElem?, List.getElem?_eq_getElem h0]
      rfl
    · intro i h
      rw [List.chain'_iff_get] at hlink
      exact hlink i (by omega)
  · intro bc t
    exact ⟨[], by simp [Blockchain.add_transaction]⟩
  · intro bc ts fuel addr bc' hm
    simp only [Blockchain.mine_pending_transactions, Blockchain.get_latest_block] at hm
    split at hm
    · exact absurd hm (by simp)
    · split at hm
      · rename_i b hmine
        injection hm with hm
        subst hm
        exact ⟨[b], rfl⟩
      · exact absurd hm (by simp)

/-- Witness for C3 at the concrete reachable chain. -/
theorem reachable_chain_invariants_witness :
    (witChain2.chain ≠ [] ∧
      (∃ h0 : 0 < witChain2.chain.length,
        (witChain2.chain.get ⟨0, h0⟩).index = 0 ∧
        (witChain2.chain.get ⟨0, h0⟩).previous_hash = "0") ∧
      ∀ i, ∀ h : i + 1 < witChain2.chain.length,
        (witChain2.chain.get ⟨i + 1, h⟩).previous_hash =
          (witChain2.chain.get ⟨i, Nat.lt_of_succ_lt h⟩).hash) ∧
    witChain1.mine_pending_transactions witH 7 1 "Miner1" = some witChain2 ∧
    ∃ l, witChain2.chain = witChain1.chain ++ l :=
  ⟨(reachable_chain_invariants witH).1 witChain2 witChain2_reachable,
    by decide,
    (reachable_chain_invariants witH).2.2 witChain1 7 1 "Miner1" witChain2 (by decide)⟩

/-- C4: a successful `mine_pending_transactions(addr)` appends exactly
one block: its index is the old chain length, its `previous_hash` is
the old tip's stored hash, its transactions are the old pending buffer
followed by the `"System" → addr` reward of amount `mining_reward`,
and the pending buffer is left empty; with an empty pending buffer the
new block holds exactly the reward transaction. -/
theorem mine_pending_spec (H : String → String) (timestamp : Int) (fuel : Nat)
    (bc bc' : Blockchain) (addr : String)
    (h : bc.mine_pending_transactions H timestamp fuel addr = some bc') :
    ∃ nb latest, bc.get_latest_block = some latest ∧
      bc'.chain = bc.chain ++ [nb] ∧
      bc'.chain.length = bc.chain.length + 1 ∧
      nb.index = bc.chain.length ∧
      nb.previous_hash = latest.hash ∧
      nb.transactions =
        bc.pending_transactions ++ [Transaction.new "System" addr bc.mining_reward] ∧
      bc'.pending_transactions = [] ∧
      (bc.pending_transactions = [] →
        nb.transactions = [Transaction.new "System" addr bc.mining_reward]) := by
  simp only [Blockchain.mine_pending_transactions, Blockchain.get_latest_block] at h
  split at h
  · exact absurd h (by simp)
  · rename_i latest hlatest
    split at h
    · rename_i b hmine
      injection h with h
      subst h
      have hf := mineLoop_frame H bc.difficulty fuel _ b hmine
      have hidx : b.index = bc.chain.length := hf.1.trans rfl
      have hprev : b.previous_hash = latest.hash := hf.2.2.2.trans rfl
      have htx : b.transactions =
          bc.pending_transactions ++ [Transaction.new "System" addr bc.mining_reward] :=
        hf.2.2.1.trans rfl
      refine ⟨b, latest, hlatest, rfl, by simp, hidx, hprev, htx, rfl, ?_⟩
      intro hp
      rw [htx, hp]
      rfl
    · exact absurd h (by simp)

/-- Witness for C4: mining on the concrete one-block chain with an
empty pending buffer. -/
theorem mine_pending_spec_witness :
    witChain1.mine_pending_transactions witH 7 1 "Miner1" = some witChain2 ∧
    ∃ nb latest, witChain1.get_latest_block = some latest ∧
      witChain2.chain = witChain1.chain ++ [nb] ∧
      witChain2.chain.length = witChain1.chain.length + 1 ∧
      nb.index = witChain1.chain.length ∧
      nb.previous_hash = latest.hash ∧
      nb.transactions = witChain1.pending_transactions ++
        [Transaction.new "System" "Miner1" witChain1.mining_reward] ∧
      witChain2.pending_transactions = [] ∧
      (witChain1.pending_transactions = [] →
        nb.transactions = [Transaction.new "System" "Miner1" witChain1.mining_reward]) :=
  ⟨by decide, mine_pending_spec witH 7 1 witChain1 witChain2 "Miner1" (by decide)⟩

/-- C6: chains produced by construction and successful mining report
valid; mutating one committed transaction amount in place inside a
non-genesis block makes the chain report invalid, provided the block's
recomputed digest actually changes — the collision-freeness the code
inherits from SHA-256 and the only assumption the abstract digest
parameter cannot discharge itself. -/
theorem valid_round_trip (H : String → String) :
    (∀ bc : Blockchain, Reachable H bc → bc.is_chain_valid H = true) ∧
    (∀ (bc : Blockchain) (i j : Nat) (a : Amount), Reachable H bc →
      ∀ h : i < bc.chain.length, 1 ≤ i →
      ((bc.chain.get ⟨i, h⟩).setTxAmount j a).calculate_hash H ≠
        (bc.chain.get ⟨i, h⟩).calculate_hash H →
      (bc.setTxAmount i j a).is_chain_valid H = false) := by
  constructor
  · intro bc hr
    exact good_valid H bc (reachable_good H bc hr)
  · intro bc i j a hr h hi hne
    rw [is_chain_valid_false_iff_aux]
    obtain ⟨i0, rfl⟩ : ∃ i0, i0 + 1 = i := ⟨i - 1, by omega⟩
    have hlen : (bc.setTxAmount (i0 + 1) j a).chain.length = bc.chain.length := by
      simp [Blockchain.setTxAmount, listModify_length]
    refine ⟨i0, by omega, Or.inl ?_⟩
    have hget : (bc.setTxAmount (i0 + 1) j a).chain.get ⟨i0 + 1, by omega⟩ =
        (bc.chain.get ⟨i0 + 1, h⟩).setTxAmount j a :=
      listModify_get_self bc.chain (i0 + 1) _ h _
    rw [hget, setTxAmount_hash]
    have hhash := (reachable_good H bc hr).2.2.2 _ (List.get_mem bc.chain (i0 + 1) h)
    rw [hhash]
    exact fun he => hne he.symm

/-- Witness for C6: the concrete two-block chain is valid and turns
invalid after overwriting the committed reward amount with 1000. -/
theorem valid_round_trip_witness :
    witChain2.is_chain_valid witH = true ∧
    (witChain2.setTxAmount 1 0 (Amount.finite 1000)).is_chain_valid witH = false :=
  ⟨(valid_round_trip witH).1 witChain2 witChain2_reachable,
    (valid_round_trip witH).2 witChain2 1 0 (Amount.finite 1000) witChain2_reachable
      (by decide) (by decide) (by decide)⟩

/-- A block holding a single self-transaction of amount `+∞` — a value
`f64` admits and the code accepts without any check. -/
def selfInfBlock : Block :=
  { index := 0, timestamp := 0, transactions := [Transaction.new "A" "A" .inf],
    previous_hash := "0", hash := "", nonce := 0 }

/-- A chain holding only `selfInfBlock`. -/
def selfInfChain : Blockchain :=
  { chain := [selfInfBlock], difficulty := 2, pending_transactions := [],
    mining_reward := .finite 100 }

/-- The same chain with the self-transaction removed. -/
def noTxChain : Blockchain :=
  { chain := [{ selfInfBlock with transactions := [] }], difficulty := 2,
    pending_transactions := [], mining_reward := .finite 100 }

/-- C5 counterexample: a transaction with `from == to == address` does
not always contribute net zero. With amount `+∞` the loop body
evaluates `0.0 - ∞` to `-∞` and then `-∞ + ∞` to NaN (exact IEEE 754
semantics, no rounding involved), so adding the self-transaction moves
the balance from 0 to NaN. -/
theorem get_balance_self_inf_not_net_zero :
    noTxChain.get_balance "A" = Amount.finite 0 ∧
    selfInfChain.get_balance "A" = Amount.nan ∧
    Amount.nan ≠ Amount.finite 0 := by decide

/-- C5 (amended): `get_balance` equals the fold over all transactions
of all blocks in chain order that subtracts on a matching sender and
adds on a matching recipient; a transaction with `from == to ==
address` need not contribute net zero — concretely, amount `+∞` turns
a balance of 0 into NaN — and an address appearing in no transaction
has balance 0. (No cancellation is asserted for finite amounts either:
real `f64` rounding can break `balance - amount + amount = balance`,
e.g. at balance 1.0 and amount 1e300.) -/
theorem get_balance_spec (bc : Blockchain) (address : String) :
    bc.get_balance address = balanceSpec bc address ∧
    (noTxChain.get_balance "A" = Amount.finite 0 ∧
      selfInfChain.get_balance "A" = Amount.nan) ∧
    ((∀ b ∈ bc.chain, ∀ t ∈ b.transactions,
        t.«from» ≠ address ∧ t.«to» ≠ address) →
      bc.get_balance address = .finite 0) := by
  refine ⟨get_balance_eq_spec bc address, by decide, ?_⟩
  intro hnone
  rw [get_balance_eq_spec]
  unfold balanceSpec
  apply foldl_balanceStep_frozen
  intro t htmem
  rw [List.mem_flatten] at htmem
  obtain ⟨l, hl, htl⟩ := htmem
  rw [List.mem_map] at hl
  obtain ⟨b, hb, rfl⟩ := hl
  exact hnone b hb t htl

/-- Witness for C5 (amended) at concrete inputs. -/
theorem get_balance_spec_witness :
    noTxChain.get_balance "B" = balanceSpec noTxChain "B" ∧
    noTxChain.get_balance "B" = Amount.finite 0 :=
  ⟨(get_balance_spec noTxChain "B").1,
    (get_balance_spec noTxChain "B").2.2 (by decide)⟩

/-- A transaction whose amount is the IEEE NaN. -/
def nanTx : Transaction := Transaction.new "Alice" "Bob" .nan

/-- The same transfer with amount `+∞`. -/
def infTx : Transaction := Transaction.new "Alice" "Bob" .inf

/-- A block carrying the NaN-amount transaction. -/
def c9Block (H : String → String) : Block := Block.new H 1 0 [nanTx] "x"

/-- The same block except that the transaction amount is `+∞`. -/
def c9BlockInf (H : String → String) : Block := Block.new H 1 0 [infTx] "x"

/-- A two-block chain whose second block carries the NaN-amount
transaction; every stored hash is the recomputed one. -/
def c9Chain (H : String → String) : Blockchain :=
  let b0 := Block.new H 0 0 [] "0"
  let b1 := Block.new H 1 0 [nanTx] b0.hash
  { chain := [b0, b1], difficulty := 2, pending_transactions := [],
    mining_reward := .finite 100 }

/-- C9 counterexample: serialization of a transaction list holding a
NaN amount does not fail — `serde_json` writes the JSON literal `null`
for non-finite floats and `to_string` succeeds — so the claimed
empty-string substitution never happens; NaN and `+∞` render
identically. -/
theorem serializeTransactions_nan_succeeds :
    serializeTransactions [nanTx] ≠ none ∧
    serializeTransactions [nanTx] = serializeTransactions [infTx] := by decide

/-- C9 (amended): JSON serialization of the transaction list never
fails for this type — `serde_json` renders non-finite amounts as
`null`, so `calculate_hash`'s `unwrap_or_default()` empty-string
fallback is dead code; nevertheless, because NaN and `+∞` amounts both
render as `null`, two blocks with different transaction lists but
equal remaining fields hash identically under every digest function,
and overwriting the NaN amount with `+∞` inside a committed block
changes the chain but leaves `is_chain_valid` reporting true. -/
theorem nonfinite_null_collision (H : String → String) :
    (∀ ts : List Transaction, (serializeTransactions ts).isSome = true) ∧
    Transaction.toJson nanTx = Transaction.toJson infTx ∧
    ((c9Block H).transactions ≠ (c9BlockInf H).transactions ∧
      (c9Block H).index = (c9BlockInf H).index ∧
      (c9Block H).timestamp = (c9BlockInf H).timestamp ∧
      (c9Block H).previous_hash = (c9BlockInf H).previous_hash ∧
      (c9Block H).nonce = (c9BlockInf H).nonce ∧
      (c9Block H).calculate_hash H = (c9BlockInf H).calculate_hash H) ∧
    ((c9Chain H).is_chain_valid H = true ∧
      ((c9Chain H).setTxAmount 1 0 .inf).chain ≠ (c9Chain H).chain ∧
      ((c9Chain H).setTxAmount 1 0 .inf).is_chain_valid H = true) := by
  refine ⟨fun ts => rfl, rfl, ⟨?_, rfl, rfl, rfl, rfl, rfl⟩, ?_, ?_, ?_⟩
  · intro hcontra
    have h2 : ([nanTx] : List Transaction) = [infTx] := hcontra
    simp [nanTx, infTx, Transaction.new] at h2
  · rw [is_chain_valid_iff_chain']
    exact List.chain'_cons.mpr ⟨⟨rfl, rfl⟩, List.chain'_singleton _⟩
  · intro hcontra
    simp [c9Chain, Blockchain.setTxAmount, Block.setTxAmount, listModify] at hcontra
    have h2 := congrArg Block.transactions hcontra
    simp [Block.new, nanTx, infTx, Transaction.new] at h2
  · rw [is_chain_valid_iff_chain']
    exact List.chain'_cons.mpr ⟨⟨rfl, rfl⟩, List.chain'_singleton _⟩

end ChainForge
